import Mathlib

/-!
Verification of the runtime-format template engine.

The development embeds, as executable Lean functions over `List Char`:
* the segment model and parser state machine (`Parser.next`, from
  `src/lib.rs`, `impl Iterator for Parser`);
* the ad hoc render engine (`renderLoop`, from
  `impl Display for Formatter`);
* the precompiled render engine (`renderSegments`, from
  `impl Display for CompiledFmt`);
* precompiled construction (`compiledNew`, from `CompiledFormatter::new`);
* the one-shot entry point (`format`, from `fn format`).

Rust strings are modelled as `List Char`; the infallible `String` sink is
modelled by returning the accumulated output, and a resolver is a function
from a key name to one of: written text, an unknown-key report, or a
sink-failure report.
-/

/-- Segment model: `ParseSegment` from `src/lib.rs` — a literal text run or
a placeholder key name. -/
inductive ParseSegment where
  | Literal (l : List Char)
  | Key (k : List Char)
deriving DecidableEq

/-- Render error: `FormatError` from `src/lib.rs` — an unknown key, or the
unconsumed remainder of a failed parse. -/
inductive FormatError where
  | Key (k : List Char)
  | Parse (r : List Char)
deriving DecidableEq

/-- Outcome of one resolver call (`FormatKey::fmt`): text written into the
sink, an `UnknownKey` report, or a propagated sink (`Fmt`) failure. -/
inductive FmtResult where
  | ok (v : List Char)
  | unknownKey
  | fmtError
deriving DecidableEq

/-- A resolver instance: key name to resolver-call outcome. -/
def Resolver := List Char → FmtResult

/-- Result of a render: clean success, or the generic contentless failure
together with the contents of the out-of-band diagnostic slot. -/
inductive RenderStatus where
  | done
  | failed (slot : Option FormatError)
deriving DecidableEq

/-- Parser state: remaining input and the `is_key` flag
(`struct Parser` in `src/lib.rs`). -/
structure Parser where
  s : List Char
  is_key : Bool
deriving DecidableEq

/-- Rust `str::split_once(c)`: split around the first occurrence of `c`. -/
def splitOnce (c : Char) : List Char → Option (List Char × List Char)
  | [] => none
  | x :: xs =>
    if x = c then some ([], xs)
    else
      match splitOnce c xs with
      | none => none
      | some (a, b) => some (x :: a, b)

/-- Rust `str::strip_prefix` at the opening delimiter. -/
def stripOpen : List Char → Option (List Char)
  | [] => none
  | x :: xs => if x = '{' then some xs else none

/-- One parser step: `<Parser as Iterator>::next` from `src/lib.rs`
(lines 196-232).  `core::mem::take` is modelled by emptying the state, and
`&self.s[..prefix.len() + 1]` is the opening brace followed by the split
prefix. -/
def Parser.next (p : Parser) : Option (ParseSegment × Parser) :=
  if p.s.isEmpty then none
  else if p.is_key then
    match stripOpen p.s with
    | some rest =>
      match splitOnce '{' rest with
      | none => some (.Literal p.s, ⟨[], false⟩)
      | some (a, rest2) => some (.Literal ('{' :: a), ⟨rest2, true⟩)
    | none =>
      match splitOnce '}' p.s with
      | some (k, rest) => some (.Key k, ⟨rest, false⟩)
      | none => none
  else
    match splitOnce '{' p.s with
    | none => some (.Literal p.s, ⟨[], false⟩)
    | some (a, rest) => some (.Literal a, ⟨rest, true⟩)

/-- Fuelled exhaustion of the parser iterator: collect all produced
segments and report the remaining (unconsumed) input. -/
def parseAllF : Nat → Parser → List ParseSegment × List Char
  | 0, p => ([], p.s)
  | fuel + 1, p =>
    match p.next with
    | none => ([], p.s)
    | some (seg, p') =>
      let r := parseAllF fuel p'
      (seg :: r.1, r.2)

/-- Run the parser to exhaustion (`segments.by_ref().collect()` followed by
reading `segments.s`): produced segments plus the unconsumed remainder. -/
def parseAll (p : Parser) : List ParseSegment × List Char :=
  parseAllF (p.s.length + 1) p

/-- Fuelled ad hoc render: `impl Display for Formatter` from `src/lib.rs`
(lines 149-175).  Literals are written verbatim; a key is delegated to the
resolver; on `UnknownKey` the slot records `FormatError::Key`, on a sink
failure the slot stays empty; after the iterator is exhausted a non-empty
remainder records `FormatError::Parse`. -/
def renderLoopF : Nat → Parser → Resolver → List Char × RenderStatus
  | 0, _, _ => ([], .failed none)
  | fuel + 1, p, F =>
    match p.next with
    | none => ([], if p.s.isEmpty then .done else .failed (some (.Parse p.s)))
    | some (.Literal l, p') =>
      let r := renderLoopF fuel p' F
      (l ++ r.1, r.2)
    | some (.Key k, p') =>
      match F k with
      | .ok v =>
        let r := renderLoopF fuel p' F
        (v ++ r.1, r.2)
      | .unknownKey => ([], .failed (some (.Key k)))
      | .fmtError => ([], .failed none)

/-- Ad hoc render of a parser state against a resolver. -/
def renderLoop (p : Parser) (F : Resolver) : List Char × RenderStatus :=
  renderLoopF (p.s.length + 1) p F

/-- Precompiled render: `impl Display for CompiledFmt` from `src/lib.rs`
(lines 114-131) — the same loop over a cached segment list, with no
remainder check. -/
def renderSegments : List ParseSegment → Resolver → List Char × RenderStatus
  | [], _ => ([], .done)
  | .Literal l :: rest, F =>
    let r := renderSegments rest F
    (l ++ r.1, r.2)
  | .Key k :: rest, F =>
    match F k with
    | .ok v =>
      let r := renderSegments rest F
      (v ++ r.1, r.2)
    | .unknownKey => ([], .failed (some (.Key k)))
    | .fmtError => ([], .failed none)

/-- Key names of a segment list, in order (the `filter_map` over segments
inside `CompiledFormatter::new`). -/
def segKeys : List ParseSegment → List (List Char)
  | [] => []
  | .Literal _ :: r => segKeys r
  | .Key k :: r => k :: segKeys r

/-- `CompiledFormatter::new` from `src/lib.rs` (lines 74-97): parse
eagerly; a non-empty remainder is a `Parse` error; otherwise the first key
rejected by the resolver type's static predicate `acc`
(`FormatKey::is_acceptable_key`) is a `Key` error; otherwise the cached
segment list. -/
def compiledNew (acc : List Char → Bool) (s : List Char) :
    Except FormatError (List ParseSegment) :=
  if (parseAll ⟨s, false⟩).2.isEmpty then
    match ((segKeys (parseAll ⟨s, false⟩).1).filter fun k => !acc k).head? with
    | some k => .error (.Key k)
    | none => .ok (parseAll ⟨s, false⟩).1
  else .error (.Parse (parseAll ⟨s, false⟩).2)

/-- The one-shot entry point `fn format` from `src/lib.rs` (lines 43-55):
render into a fresh infallible `String`; on failure return the recorded
error, and `none` models the `panic!` branch taken when the write failed
with an empty diagnostic slot. -/
def format (F : Resolver) (s : List Char) :
    Option (Except FormatError (List Char)) :=
  match (renderLoop ⟨s, false⟩ F).2 with
  | .done => some (.ok (renderLoop ⟨s, false⟩ F).1)
  | .failed (some e) => some (.error e)
  | .failed none => none

/-! ### Basic facts about `splitOnce` and `stripOpen` -/

theorem splitOnce_some (c : Char) :
    ∀ {s a b : List Char}, splitOnce c s = some (a, b) →
      s = a ++ c :: b ∧ c ∉ a := by
  intro s
  induction s with
  | nil => intro a b h; simp [splitOnce] at h
  | cons x xs ih =>
    intro a b h
    by_cases hx : x = c
    · simp [splitOnce, hx] at h
      obtain ⟨ha, hb⟩ := h
      subst ha; subst hb; subst hx
      simp
    · simp only [splitOnce, if_neg hx] at h
      cases hsp : splitOnce c xs with
      | none => rw [hsp] at h; simp at h
      | some ab =>
        obtain ⟨a', b'⟩ := ab
        rw [hsp] at h
        simp at h
        obtain ⟨ha, hb⟩ := h
        obtain ⟨h1, h2⟩ := ih hsp
        subst ha; subst hb
        constructor
        · simp [h1]
        · intro hmem
          rcases List.mem_cons.mp hmem with h | h
          · exact hx h.symm
          · exact h2 h

theorem splitOnce_none (c : Char) :
    ∀ {s : List Char}, splitOnce c s = none → c ∉ s := by
  intro s
  induction s with
  | nil => intro _; simp
  | cons x xs ih =>
    intro h
    by_cases hx : x = c
    · simp [splitOnce, hx] at h
    · simp only [splitOnce, if_neg hx] at h
      cases hsp : splitOnce c xs with
      | none =>
        intro hmem
        rcases List.mem_cons.mp hmem with h' | h'
        · exact hx h'.symm
        · exact ih hsp h'
      | some ab => rw [hsp] at h; simp at h

theorem splitOnce_of_not_mem (c : Char) :
    ∀ {s : List Char}, c ∉ s → splitOnce c s = none := by
  intro s
  induction s with
  | nil => intro _; rfl
  | cons x xs ih =>
    intro h
    have hx : ¬ x = c := fun he => h (he ▸ List.mem_cons_self x xs)
    have hxs : c ∉ xs := fun hm => h (List.mem_cons_of_mem x hm)
    simp only [splitOnce, if_neg hx, ih hxs]

theorem splitOnce_append (c : Char) :
    ∀ {a : List Char} (b : List Char), c ∉ a →
      splitOnce c (a ++ c :: b) = some (a, b) := by
  intro a
  induction a with
  | nil => intro b _; simp [splitOnce]
  | cons x xs ih =>
    intro b h
    have hx : ¬ x = c := fun he => h (he ▸ List.mem_cons_self x xs)
    have hxs : c ∉ xs := fun hm => h (List.mem_cons_of_mem x hm)
    simp only [List.cons_append, splitOnce, if_neg hx, List.append_eq, ih b hxs]

theorem stripOpen_cons (x : Char) (xs : List Char) :
    stripOpen (x :: xs) = if x = '{' then some xs else none := rfl

/-! ### The parser consumes input -/


/-! ### Step equations for `Parser.next` -/

theorem next_nil (b : Bool) : Parser.next ⟨[], b⟩ = none := rfl

theorem next_lit_none {s : List Char} (hne : s ≠ [])
    (hsp : splitOnce '{' s = none) :
    Parser.next ⟨s, false⟩ = some (.Literal s, ⟨[], false⟩) := by
  cases s with
  | nil => exact absurd rfl hne
  | cons x xs => simp [Parser.next, hsp]

theorem next_lit_some {s a rest : List Char}
    (hsp : splitOnce '{' s = some (a, rest)) :
    Parser.next ⟨s, false⟩ = some (.Literal a, ⟨rest, true⟩) := by
  cases s with
  | nil => simp [splitOnce] at hsp
  | cons x xs => simp [Parser.next, hsp]

theorem next_key_esc_none {rest : List Char}
    (hsp : splitOnce '{' rest = none) :
    Parser.next ⟨'{' :: rest, true⟩ =
      some (.Literal ('{' :: rest), ⟨[], false⟩) := by
  simp [Parser.next, stripOpen, hsp]

theorem next_key_esc_some {rest a b : List Char}
    (hsp : splitOnce '{' rest = some (a, b)) :
    Parser.next ⟨'{' :: rest, true⟩ =
      some (.Literal ('{' :: a), ⟨b, true⟩) := by
  simp [Parser.next, stripOpen, hsp]

theorem next_key_key {s k rest : List Char} (hne : s ≠ [])
    (hhd : s.head? ≠ some '{') (hsp : splitOnce '}' s = some (k, rest)) :
    Parser.next ⟨s, true⟩ = some (.Key k, ⟨rest, false⟩) := by
  cases s with
  | nil => exact absurd rfl hne
  | cons x xs =>
    have hx : ¬ x = '{' := by simpa using hhd
    simp [Parser.next, stripOpen, if_neg hx, hsp]

theorem next_key_stuck {s : List Char} (hne : s ≠ [])
    (hhd : s.head? ≠ some '{') (hsp : splitOnce '}' s = none) :
    Parser.next ⟨s, true⟩ = none := by
  cases s with
  | nil => exact absurd rfl hne
  | cons x xs =>
    have hx : ¬ x = '{' := by simpa using hhd
    simp [Parser.next, stripOpen, if_neg hx, hsp]

/-! ### The parser consumes input -/

theorem next_shrinks {p : Parser} {seg : ParseSegment} {p' : Parser}
    (h : Parser.next p = some (seg, p')) : p'.s.length < p.s.length := by
  obtain ⟨s, k⟩ := p
  cases s with
  | nil => simp [Parser.next] at h
  | cons x xs =>
    cases k with
    | false =>
      cases hsp : splitOnce '{' (x :: xs) with
      | none =>
        rw [next_lit_none (List.cons_ne_nil x xs) hsp] at h
        simp at h
        rw [← h.2]
        simp
      | some ab =>
        obtain ⟨a, b⟩ := ab
        rw [next_lit_some hsp] at h
        simp at h
        obtain ⟨hdec, -⟩ := splitOnce_some '{' hsp
        rw [← h.2, hdec]
        simp
        omega
    | true =>
      by_cases hx : x = '{'
      · subst hx
        cases hsp : splitOnce '{' xs with
        | none =>
          rw [next_key_esc_none hsp] at h
          simp at h
          rw [← h.2]
          simp
        | some ab =>
          obtain ⟨a, b⟩ := ab
          rw [next_key_esc_some hsp] at h
          simp at h
          obtain ⟨hdec, -⟩ := splitOnce_some '{' hsp
          rw [← h.2, hdec]
          simp
          omega
      · have hhd : (x :: xs).head? ≠ some '{' := by simpa using hx
        cases hsp : splitOnce '}' (x :: xs) with
        | none =>
          rw [next_key_stuck (List.cons_ne_nil x xs) hhd hsp] at h
          simp at h
        | some ab =>
          obtain ⟨a, b⟩ := ab
          rw [next_key_key (List.cons_ne_nil x xs) hhd hsp] at h
          simp at h
          obtain ⟨hdec, -⟩ := splitOnce_some '}' hsp
          rw [← h.2, hdec]
          simp
          omega

/-! ### Fuel irrelevance and one-step unfoldings -/

theorem parseAllF_congr :
    ∀ (f1 f2 : Nat) (p : Parser), p.s.length < f1 → p.s.length < f2 →
      parseAllF f1 p = parseAllF f2 p := by
  intro f1
  induction f1 with
  | zero => intro f2 p h1 _; omega
  | succ n ih =>
    intro f2 p h1 h2
    cases f2 with
    | zero => omega
    | succ m =>
      show parseAllF (n + 1) p = parseAllF (m + 1) p
      simp only [parseAllF]
      cases hnx : p.next with
      | none => rfl
      | some sp =>
        obtain ⟨seg, p'⟩ := sp
        have hlt := next_shrinks hnx
        have := ih m p' (by omega) (by omega)
        simp [this]

theorem parseAll_step (p : Parser) :
    parseAll p =
      match p.next with
      | none => ([], p.s)
      | some (seg, p') => ((seg :: (parseAll p').1), (parseAll p').2) := by
  show parseAllF (p.s.length + 1) p = _
  simp only [parseAllF]
  cases hnx : p.next with
  | none => rfl
  | some sp =>
    obtain ⟨seg, p'⟩ := sp
    have hlt := next_shrinks hnx
    have : parseAllF p.s.length p' = parseAllF (p'.s.length + 1) p' :=
      parseAllF_congr _ _ p' (by omega) (by omega)
    simp [this, parseAll]

theorem renderLoopF_congr :
    ∀ (f1 f2 : Nat) (p : Parser) (F : Resolver),
      p.s.length < f1 → p.s.length < f2 →
      renderLoopF f1 p F = renderLoopF f2 p F := by
  intro f1
  induction f1 with
  | zero => intro f2 p F h1 _; omega
  | succ n ih =>
    intro f2 p F h1 h2
    cases f2 with
    | zero => omega
    | succ m =>
      show renderLoopF (n + 1) p F = renderLoopF (m + 1) p F
      simp only [renderLoopF]
      cases hnx : p.next with
      | none => rfl
      | some sp =>
        obtain ⟨seg, p'⟩ := sp
        have hlt := next_shrinks hnx
        have heq := ih m p' F (by omega) (by omega)
        cases seg with
        | Literal l => simp [heq]
        | Key k =>
          cases hF : F k with
          | ok v => simp [heq, hF]
          | unknownKey => simp [hF]
          | fmtError => simp [hF]

theorem renderLoop_step (p : Parser) (F : Resolver) :
    renderLoop p F =
      match p.next with
      | none =>
        ([], if p.s.isEmpty then .done else .failed (some (.Parse p.s)))
      | some (.Literal l, p') =>
        (l ++ (renderLoop p' F).1, (renderLoop p' F).2)
      | some (.Key k, p') =>
        match F k with
        | .ok v => (v ++ (renderLoop p' F).1, (renderLoop p' F).2)
        | .unknownKey => ([], .failed (some (.Key k)))
        | .fmtError => ([], .failed none) := by
  show renderLoopF (p.s.length + 1) p F = _
  simp only [renderLoopF]
  cases hnx : p.next with
  | none => rfl
  | some sp =>
    obtain ⟨seg, p'⟩ := sp
    have hlt := next_shrinks hnx
    have heq : renderLoopF p.s.length p' F = renderLoopF (p'.s.length + 1) p' F :=
      renderLoopF_congr _ _ p' F (by omega) (by omega)
    cases seg with
    | Literal l => simp [heq, renderLoop]
    | Key k =>
      cases hF : F k with
      | ok v => simp [heq, hF, renderLoop]
      | unknownKey => simp [hF]
      | fmtError => simp [hF]

/-! ### Live rendering versus cached-segment rendering -/

/-- Combine a cached-segment render result with the remainder check the
live `Formatter` performs after its parser is exhausted. -/
def mergeRem (r : List Char × RenderStatus) (rem : List Char) :
    List Char × RenderStatus :=
  match r.2 with
  | .done => (r.1, if rem.isEmpty then .done else .failed (some (.Parse rem)))
  | .failed _ => r

theorem renderLoop_eq_mergeRem (F : Resolver) :
    ∀ (n : Nat) (p : Parser), p.s.length ≤ n →
      renderLoop p F = mergeRem (renderSegments (parseAll p).1 F) (parseAll p).2 := by
  intro n
  induction n with
  | zero =>
    intro p hp
    have hs : p.s = [] := List.length_eq_zero.mp (Nat.le_zero.mp hp)
    obtain ⟨s, k⟩ := p
    simp only at hs
    subst hs
    rw [renderLoop_step, parseAll_step]
    simp [next_nil, renderSegments, mergeRem]
  | succ n ih =>
    intro p hp
    rw [renderLoop_step, parseAll_step]
    cases hnx : p.next with
    | none =>
      by_cases hemp : p.s.isEmpty
      · simp [renderSegments, mergeRem, hemp]
      · simp [renderSegments, mergeRem, hemp]
    | some sp =>
      obtain ⟨seg, p'⟩ := sp
      have hlt := next_shrinks hnx
      have hih := ih p' (by omega)
      cases seg with
      | Literal l =>
        simp only [hih, renderSegments, mergeRem]
        cases hst : (renderSegments (parseAll p').1 F).2 with
        | done => simp [hst]
        | failed e => simp [hst]
      | Key k =>
        cases hF : F k with
        | ok v =>
          simp only [hih, renderSegments, hF, mergeRem]
          cases hst : (renderSegments (parseAll p').1 F).2 with
          | done => simp [hst]
          | failed e => simp [hst]
        | unknownKey => simp [renderSegments, hF, mergeRem]
        | fmtError => simp [renderSegments, hF, mergeRem]

theorem renderLoop_eq (p : Parser) (F : Resolver) :
    renderLoop p F =
      mergeRem (renderSegments (parseAll p).1 F) (parseAll p).2 :=
  renderLoop_eq_mergeRem F p.s.length p (Nat.le_refl _)

/-! ### Rendering a segment list whose leading keys all resolve -/

/-- All keys of a segment list succeed under the resolver. -/
def allOk (F : Resolver) : List ParseSegment → Bool
  | [] => true
  | .Literal _ :: r => allOk F r
  | .Key k :: r =>
    match F k with
    | .ok _ => allOk F r
    | _ => false

/-- Output accumulated by a successful render of a segment list. -/
def okOut (F : Resolver) : List ParseSegment → List Char
  | [] => []
  | .Literal l :: r => l ++ okOut F r
  | .Key k :: r =>
    (match F k with | .ok v => v | _ => []) ++ okOut F r

theorem renderSegments_allOk (F : Resolver) :
    ∀ {segs : List ParseSegment}, allOk F segs = true →
      renderSegments segs F = (okOut F segs, .done) := by
  intro segs
  induction segs with
  | nil => intro _; rfl
  | cons seg rest ih =>
    intro h
    cases seg with
    | Literal l =>
      simp only [allOk] at h
      simp [renderSegments, okOut, ih h]
    | Key k =>
      simp only [allOk] at h
      cases hF : F k with
      | ok v =>
        rw [hF] at h
        simp [renderSegments, okOut, hF, ih h]
      | unknownKey => rw [hF] at h; simp at h
      | fmtError => rw [hF] at h; simp at h

theorem renderSegments_append_fail (F : Resolver) {pre : List ParseSegment}
    (k : List Char) (post : List ParseSegment)
    (hok : allOk F pre = true) (hne : ∀ v, F k ≠ .ok v) :
    renderSegments (pre ++ .Key k :: post) F =
      (okOut F pre,
        .failed (match F k with
          | .unknownKey => some (.Key k)
          | _ => none)) := by
  induction pre with
  | nil =>
    cases hF : F k with
    | ok v => exact absurd hF (hne v)
    | unknownKey => simp [renderSegments, hF, okOut]
    | fmtError => simp [renderSegments, hF, okOut]
  | cons seg rest ih =>
    cases seg with
    | Literal l =>
      simp only [allOk] at hok
      simp [renderSegments, okOut, ih hok]
    | Key k' =>
      simp only [allOk] at hok
      cases hF : F k' with
      | ok v =>
        rw [hF] at hok
        simp [renderSegments, okOut, hF, ih hok]
      | unknownKey => rw [hF] at hok; simp at hok
      | fmtError => rw [hF] at hok; simp at hok

/-! ### Reconstruction of a fully consumed template -/

/-- No two adjacent opening delimiters (no `escaped` pair) in the text. -/
def noDouble : List Char → Bool
  | [] => true
  | c :: r => !(c == '{' && r.head? == some '{') && noDouble r

/-- The text ends with an opening delimiter. -/
def lastBrace : List Char → Bool
  | [] => false
  | c :: r => if r.isEmpty then c == '{' else lastBrace r

/-- Concatenate every Literal's text and each Key's name wrapped in its
delimiters. -/
def recon : List ParseSegment → List Char
  | [] => []
  | .Literal l :: r => l ++ recon r
  | .Key k :: r => '{' :: (k ++ '}' :: recon r)

theorem noDouble_append_right :
    ∀ {a b : List Char}, noDouble (a ++ b) = true → noDouble b = true := by
  intro a
  induction a with
  | nil => intro b h; exact h
  | cons x xs ih =>
    intro b h
    simp only [List.cons_append, noDouble, Bool.and_eq_true] at h
    exact ih h.2

theorem noDouble_brace :
    ∀ {a b : List Char}, noDouble (a ++ '{' :: b) = true →
      b.head? ≠ some '{' ∧ noDouble b = true := by
  intro a
  induction a with
  | nil =>
    intro b h
    simp only [List.nil_append, noDouble, Bool.and_eq_true, Bool.not_eq_true',
      Bool.and_eq_false_iff, beq_iff_eq] at h
    refine ⟨?_, h.2⟩
    rcases h.1 with h1 | h1
    · simp at h1
    · simpa using h1
  | cons x xs ih =>
    intro b h
    simp only [List.cons_append, noDouble, Bool.and_eq_true] at h
    exact ih h.2

theorem lastBrace_append :
    ∀ {a b : List Char}, b ≠ [] → lastBrace (a ++ b) = lastBrace b := by
  intro a
  induction a with
  | nil => intro b _; rfl
  | cons x xs ih =>
    intro b hb
    have hne : xs ++ b ≠ [] := by
      intro h
      exact hb (List.append_eq_nil.mp h).2
    simp only [List.cons_append, lastBrace]
    rw [if_neg (by simpa [List.isEmpty_iff] using hne)]
    exact ih hb

theorem recon_of_parseAll :
    ∀ (n : Nat) (p : Parser), p.s.length ≤ n →
      noDouble p.s = true →
      lastBrace p.s = false →
      (p.is_key = true → p.s ≠ [] ∧ p.s.head? ≠ some '{') →
      (parseAll p).2 = [] →
      recon (parseAll p).1 = (if p.is_key then '{' :: p.s else p.s) := by
  intro n
  induction n with
  | zero =>
    intro p hp _ _ hkey _
    have hs : p.s = [] := List.length_eq_zero.mp (Nat.le_zero.mp hp)
    cases hk : p.is_key with
    | true => exact absurd hs (hkey hk).1
    | false =>
      obtain ⟨s, k⟩ := p
      simp only at hs hk
      subst hs; subst hk
      rw [parseAll_step]
      simp [next_nil, recon]
  | succ n ih =>
    intro p hp hnd hlb hkey hrem
    obtain ⟨s, kf⟩ := p
    cases hs : s with
    | nil =>
      cases hk : kf with
      | true =>
        subst hs
        exact absurd rfl (hkey (by simpa using hk)).1
      | false =>
        subst hs; subst hk
        rw [parseAll_step]
        simp [next_nil, recon]
    | cons x xs =>
      subst hs
      cases hk : kf with
      | false =>
        subst hk
        cases hsp : splitOnce '{' (x :: xs) with
        | none =>
          rw [parseAll_step] at hrem ⊢
          rw [next_lit_none (List.cons_ne_nil x xs) hsp] at hrem ⊢
          simp only
          rw [parseAll_step]
          simp [next_nil, recon]
        | some ab =>
          obtain ⟨a, rest⟩ := ab
          obtain ⟨hdec, hnmem⟩ := splitOnce_some '{' hsp
          rw [parseAll_step] at hrem ⊢
          rw [next_lit_some hsp] at hrem ⊢
          simp only at hrem ⊢
          have hrne : rest ≠ [] := by
            intro h
            subst h
            rw [hdec, lastBrace_append (by simp)] at hlb
            simp [lastBrace] at hlb
          obtain ⟨hhd, hndr⟩ := noDouble_brace (a := a) (b := rest) (hdec ▸ hnd)
          have hlbr : lastBrace rest = false := by
            rw [hdec, lastBrace_append (by simp)] at hlb
            have : lastBrace ('{' :: rest) = lastBrace rest := by
              simp only [lastBrace]
              rw [if_neg (by simpa [List.isEmpty_iff] using hrne)]
            rw [this] at hlb
            exact hlb
          have hlen : rest.length ≤ n := by
            have hp' : xs.length + 1 ≤ n + 1 := by simpa using hp
            have := congrArg List.length hdec
            simp at this
            omega
          have := ih ⟨rest, true⟩ hlen hndr hlbr
            (fun _ => ⟨hrne, hhd⟩) hrem
          simp only [if_pos] at this
          simp [recon, this, hdec]
      | true =>
        subst hk
        have hne := (hkey rfl).1
        have hhd := (hkey rfl).2
        cases hsp : splitOnce '}' (x :: xs) with
        | none =>
          rw [parseAll_step] at hrem
          rw [next_key_stuck hne hhd hsp] at hrem
          simp at hrem
        | some ab =>
          obtain ⟨k, r⟩ := ab
          obtain ⟨hdec, hnmem⟩ := splitOnce_some '}' hsp
          rw [parseAll_step] at hrem ⊢
          rw [next_key_key hne hhd hsp] at hrem ⊢
          simp only at hrem ⊢
          have hndr : noDouble r = true := by
            have : (x :: xs) = (k ++ ['}']) ++ r := by simp [hdec]
            exact noDouble_append_right (this ▸ hnd)
          have hlbr : lastBrace r = false := by
            by_cases hrne : r = []
            · subst hrne; rfl
            · have : (x :: xs) = (k ++ ['}']) ++ r := by simp [hdec]
              rw [this, lastBrace_append hrne] at hlb
              exact hlb
          have hlen : r.length ≤ n := by
            have hp' : xs.length + 1 ≤ n + 1 := by simpa using hp
            have := congrArg List.length hdec
            simp at this
            omega
          have := ih ⟨r, false⟩ hlen hndr hlbr (by simp) hrem
          simp only [if_neg] at this
          simp [recon, this, hdec]

/-! ### The escape law -/

theorem renderLoop_nil (b : Bool) (F : Resolver) :
    renderLoop ⟨[], b⟩ F = ([], .done) := by
  rw [renderLoop_step]
  simp [next_nil]

theorem renderLoop_no_brace {b : List Char} (F : Resolver) (hb : '{' ∉ b) :
    renderLoop ⟨b, false⟩ F = (b, .done) := by
  cases b with
  | nil => exact renderLoop_nil false F
  | cons x xs =>
    rw [renderLoop_step,
      next_lit_none (List.cons_ne_nil x xs) (splitOnce_of_not_mem '{' hb)]
    simp [renderLoop_nil]

theorem renderLoop_prelude (F : Resolver) :
    ∀ {a : List Char} (b : List Char), '{' ∉ a →
      renderLoop ⟨a ++ b, false⟩ F =
        (a ++ (renderLoop ⟨b, false⟩ F).1, (renderLoop ⟨b, false⟩ F).2) := by
  intro a b ha
  cases hsp : splitOnce '{' b with
  | none =>
    have hb : '{' ∉ b := splitOnce_none '{' hsp
    have hab : '{' ∉ a ++ b := by
      intro h
      rcases List.mem_append.mp h with h | h
      · exact ha h
      · exact hb h
    rw [renderLoop_no_brace F hab, renderLoop_no_brace F hb]
  | some cr =>
    obtain ⟨c, r⟩ := cr
    obtain ⟨hdec, hnm⟩ := splitOnce_some '{' hsp
    have hsp2 : splitOnce '{' (a ++ b) = some (a ++ c, r) := by
      have : a ++ b = (a ++ c) ++ '{' :: r := by simp [hdec]
      rw [this]
      refine splitOnce_append '{' r ?_
      intro h
      rcases List.mem_append.mp h with h | h
      · exact ha h
      · exact hnm h
    rw [renderLoop_step, next_lit_some hsp2]
    rw [show renderLoop ⟨b, false⟩ F =
      (c ++ (renderLoop ⟨r, true⟩ F).1, (renderLoop ⟨r, true⟩ F).2) by
        rw [renderLoop_step, next_lit_some hsp]]
    simp

theorem splitOnce_cons_self (c : Char) (rest : List Char) :
    splitOnce c (c :: rest) = some ([], rest) := by
  simp [splitOnce]

theorem escape_run (F : Resolver) :
    ∀ (j : Nat) (b : List Char), b.head? ≠ some '{' →
      renderLoop ⟨List.replicate (2 * j + 1) '{' ++ b, true⟩ F =
        (List.replicate (j + 1) '{' ++ (renderLoop ⟨b, false⟩ F).1,
          (renderLoop ⟨b, false⟩ F).2) := by
  intro j
  induction j with
  | zero =>
    intro b hb
    simp only [Nat.mul_zero, Nat.zero_add, List.replicate_one, List.replicate]
    cases hsp : splitOnce '{' b with
    | none =>
      have hbm : '{' ∉ b := splitOnce_none '{' hsp
      rw [renderLoop_step]
      simp only [List.singleton_append]
      rw [next_key_esc_none hsp]
      simp [renderLoop_nil, renderLoop_no_brace F hbm]
    | some cr =>
      obtain ⟨c, r⟩ := cr
      obtain ⟨hdec, hnm⟩ := splitOnce_some '{' hsp
      rw [renderLoop_step]
      simp only [List.singleton_append]
      rw [next_key_esc_some hsp]
      rw [show renderLoop ⟨b, false⟩ F =
        (c ++ (renderLoop ⟨r, true⟩ F).1, (renderLoop ⟨r, true⟩ F).2) by
          rw [renderLoop_step, next_lit_some hsp]]
      simp
  | succ j ih =>
    intro b hb
    have hrep : List.replicate (2 * (j + 1) + 1) '{' ++ b =
        '{' :: ('{' :: (List.replicate (2 * j + 1) '{' ++ b)) := by
      have : 2 * (j + 1) + 1 = (2 * j + 1) + 1 + 1 := by omega
      rw [this, List.replicate_succ, List.replicate_succ]
      simp
    rw [hrep, renderLoop_step]
    have hsp : splitOnce '{' ('{' :: (List.replicate (2 * j + 1) '{' ++ b)) =
        some ([], List.replicate (2 * j + 1) '{' ++ b) :=
      splitOnce_cons_self '{' _
    rw [next_key_esc_some hsp]
    simp only [ih b hb]
    simp [List.replicate_succ]

/-! ### A trailing unmatched opening delimiter is dropped -/

theorem renderLoop_append_brace (F : Resolver) :
    ∀ (n : Nat) (p : Parser), p.s.length ≤ n →
      lastBrace p.s = false →
      (p.s = [] → p.is_key = false) →
      ∀ out, renderLoop p F = (out, .done) →
      renderLoop ⟨p.s ++ ['{'], p.is_key⟩ F = (out, .done) := by
  intro n
  induction n with
  | zero =>
    intro p hp _ hnil out hr
    have hs : p.s = [] := List.length_eq_zero.mp (Nat.le_zero.mp hp)
    obtain ⟨s, kf⟩ := p
    simp only at hs
    subst hs
    have hk := hnil rfl
    simp only at hk
    subst hk
    rw [renderLoop_nil false F] at hr
    injection hr with h1 h2
    subst h1
    rw [renderLoop_step]
    simp only [List.nil_append]
    rw [next_lit_some (splitOnce_cons_self '{' [])]
    simp [renderLoop_nil]
  | succ n ih =>
    intro p hp hlb hnil out hr
    obtain ⟨s, kf⟩ := p
    cases hs : s with
    | nil =>
      subst hs
      have hk := hnil rfl
      simp only at hk
      subst hk
      rw [renderLoop_nil false F] at hr
      injection hr with h1 h2
      subst h1
      rw [renderLoop_step]
      simp only [List.nil_append]
      rw [next_lit_some (splitOnce_cons_self '{' [])]
      simp [renderLoop_nil]
    | cons x xs =>
      subst hs
      simp only at hlb hr ⊢
      have hp' : xs.length + 1 ≤ n + 1 := by simpa using hp
      cases hk : kf with
      | false =>
        subst hk
        cases hsp : splitOnce '{' (x :: xs) with
        | none =>
          have hnm : '{' ∉ x :: xs := splitOnce_none '{' hsp
          rw [renderLoop_step, next_lit_none (List.cons_ne_nil x xs) hsp] at hr
          simp only [renderLoop_nil] at hr
          injection hr with h1 h2
          rw [renderLoop_step, next_lit_some (splitOnce_append '{' [] hnm)]
          simp [renderLoop_nil, ← h1]
        | some ab =>
          obtain ⟨a, b⟩ := ab
          obtain ⟨hdec, hnm⟩ := splitOnce_some '{' hsp
          rw [renderLoop_step, next_lit_some hsp] at hr
          simp only at hr
          injection hr with h1 h2
          have hbne : b ≠ [] := by
            intro h
            subst h
            rw [hdec, lastBrace_append (by simp)] at hlb
            simp [lastBrace] at hlb
          have hlbb : lastBrace b = false := by
            rw [hdec, lastBrace_append (by simp)] at hlb
            have heq : lastBrace ('{' :: b) = lastBrace b := by
              simp only [lastBrace]
              rw [if_neg (by simpa [List.isEmpty_iff] using hbne)]
            rw [heq] at hlb
            exact hlb
          have hlen : b.length ≤ n := by
            have := congrArg List.length hdec
            simp at this
            omega
          have hih := ih ⟨b, true⟩ hlen hlbb (fun h => absurd h hbne)
            (renderLoop ⟨b, true⟩ F).1 (by rw [← h2])
          have hsp2 : splitOnce '{' ((x :: xs) ++ ['{']) = some (a, b ++ ['{']) := by
            have : (x :: xs) ++ ['{'] = a ++ '{' :: (b ++ ['{']) := by simp [hdec]
            rw [this]
            exact splitOnce_append '{' (b ++ ['{']) hnm
          rw [renderLoop_step, next_lit_some hsp2]
          simp only [hih]
          simp [← h1]
      | true =>
        subst hk
        by_cases hx : x = '{'
        · subst hx
          cases hsp : splitOnce '{' xs with
          | none =>
            have hnm : '{' ∉ xs := splitOnce_none '{' hsp
            rw [renderLoop_step, next_key_esc_none hsp] at hr
            simp only [renderLoop_nil] at hr
            injection hr with h1 h2
            have hsp2 : splitOnce '{' (xs ++ ['{']) = some (xs, []) :=
              splitOnce_append '{' [] hnm
            rw [renderLoop_step]
            rw [show ('{' :: xs) ++ ['{'] = '{' :: (xs ++ ['{']) from rfl]
            rw [next_key_esc_some hsp2]
            simp [renderLoop_nil, ← h1]
          | some ab =>
            obtain ⟨a, b⟩ := ab
            obtain ⟨hdec, hnm⟩ := splitOnce_some '{' hsp
            rw [renderLoop_step, next_key_esc_some hsp] at hr
            simp only at hr
            injection hr with h1 h2
            have hbne : b ≠ [] := by
              intro h
              subst h
              have : ('{' :: xs) = ('{' :: a) ++ ['{'] := by simp [hdec]
              rw [this, lastBrace_append (by simp)] at hlb
              simp [lastBrace] at hlb
            have hlbb : lastBrace b = false := by
              have : ('{' :: xs) = ('{' :: a ++ ['{']) ++ b := by simp [hdec]
              rw [this, lastBrace_append hbne] at hlb
              exact hlb
            have hlen : b.length ≤ n := by
              have := congrArg List.length hdec
              simp at this
              omega
            have hih := ih ⟨b, true⟩ hlen hlbb (fun h => absurd h hbne)
              (renderLoop ⟨b, true⟩ F).1 (by rw [← h2])
            have hsp2 : splitOnce '{' (xs ++ ['{']) = some (a, b ++ ['{']) := by
              have : xs ++ ['{'] = a ++ '{' :: (b ++ ['{']) := by simp [hdec]
              rw [this]
              exact splitOnce_append '{' (b ++ ['{']) hnm
            rw [renderLoop_step]
            rw [show ('{' :: xs) ++ ['{'] = '{' :: (xs ++ ['{']) from rfl]
            rw [next_key_esc_some hsp2]
            simp only [hih]
            simp [← h1]
        · have hhd : (x :: xs).head? ≠ some '{' := by simpa using hx
          cases hsp : splitOnce '}' (x :: xs) with
          | none =>
            rw [renderLoop_step, next_key_stuck (List.cons_ne_nil x xs) hhd hsp] at hr
            simp at hr
          | some ab =>
            obtain ⟨k, r⟩ := ab
            obtain ⟨hdec, hnm⟩ := splitOnce_some '}' hsp
            rw [renderLoop_step, next_key_key (List.cons_ne_nil x xs) hhd hsp] at hr
            cases hF : F k with
            | ok v =>
              simp only [hF] at hr
              rw [Prod.ext_iff] at hr
              obtain ⟨h1, h2⟩ := hr
              simp only at h1 h2
              have hlbr : lastBrace r = false := by
                by_cases hrne : r = []
                · subst hrne; rfl
                · have : (x :: xs) = (k ++ ['}']) ++ r := by simp [hdec]
                  rw [this, lastBrace_append hrne] at hlb
                  exact hlb
              have hlen : r.length ≤ n := by
                have := congrArg List.length hdec
                simp at this
                omega
              have hih := ih ⟨r, false⟩ hlen hlbr (by simp)
                (renderLoop ⟨r, false⟩ F).1 (by rw [← h2])
              have hsp2 : splitOnce '}' ((x :: xs) ++ ['{']) = some (k, r ++ ['{']) := by
                have : (x :: xs) ++ ['{'] = k ++ '}' :: (r ++ ['{']) := by simp [hdec]
                rw [this]
                exact splitOnce_append '}' (r ++ ['{']) hnm
              have hhd2 : ((x :: xs) ++ ['{']).head? ≠ some '{' := by simpa using hx
              rw [renderLoop_step,
                next_key_key (by simp) hhd2 hsp2]
              simp only [hF, hih]
              simp [← h1]
            | unknownKey => simp [hF] at hr
            | fmtError => simp [hF] at hr

/-! ### Remaining helpers -/

theorem mergeRem_nil (r : List Char × RenderStatus) : mergeRem r [] = r := by
  obtain ⟨out, st⟩ := r
  cases st with
  | done => simp [mergeRem]
  | failed e => simp [mergeRem]

theorem filter_head_eq_find (p : List Char → Bool) :
    ∀ (l : List (List Char)), (l.filter p).head? = l.find? p := by
  intro l
  induction l with
  | nil => rfl
  | cons x xs ih =>
    by_cases hx : p x
    · rw [List.find?_cons_of_pos _ hx, List.filter_cons_of_pos hx]
      rfl
    · rw [List.find?_cons_of_neg _ (by simpa using hx),
        List.filter_cons_of_neg (by simpa using hx)]
      exact ih

theorem renderSegments_no_sink (F : Resolver) (hF : ∀ k, F k ≠ .fmtError) :
    ∀ segs : List ParseSegment, (renderSegments segs F).2 ≠ .failed none := by
  intro segs
  induction segs with
  | nil => simp [renderSegments]
  | cons seg rest ih =>
    cases seg with
    | Literal l => simpa [renderSegments] using ih
    | Key k =>
      cases hFk : F k with
      | ok v => simpa [renderSegments, hFk] using ih
      | unknownKey => simp [renderSegments, hFk]
      | fmtError => exact absurd hFk (hF k)

/-! ### Concrete resolvers used in witnesses and counterexamples -/

/-- A resolver rejecting every key as unknown. -/
def alwaysUnknown : Resolver := fun _ => .unknownKey

/-- A resolver reporting a sink (`Fmt`) failure on every key. -/
def alwaysSink : Resolver := fun _ => .fmtError

/-- The `Message` resolver of the repository's tests: `recipient` renders
as `World`, `time_descriptor` as `morning`, anything else is unknown. -/
def Message : Resolver := fun k =>
  if k = "recipient".toList then .ok "World".toList
  else if k = "time_descriptor".toList then .ok "morning".toList
  else .unknownKey

/-! ## Claims -/

/-- C1 (counterexample): the claim predicts, for the template consisting of
an unmatched `{` followed by `a`, a Parse payload equal to the suffix
starting at the `{` itself; the code produces the payload without the `{`.
Moreover the claim predicts a Parse error for a trailing unmatched `{`,
but the code renders such a template successfully. -/
theorem c1_counterexample :
    renderLoop ⟨['{', 'a'], false⟩ alwaysUnknown =
      ([], .failed (some (.Parse ['a']))) ∧
    ['a'] ≠ ['{', 'a'] ∧
    renderLoop ⟨['a', 'b', 'c', '{'], false⟩ alwaysUnknown =
      (['a', 'b', 'c'], .done) := by
  decide

/-- C1 (amended): for every template of the form `p ++ "{" ++ q` where the
`{` is unmatched (no `{` in `p` or `q`, no `}` in `q`) and is not the final
character (`q` non-empty), rendering fails with a Parse error whose payload
is non-empty and is the unconsumed suffix starting just AFTER that `{`
(the delimiter itself is consumed and not part of the payload). -/
theorem c1_unmatched_open_parse_payload (p q : List Char) (F : Resolver)
    (hp : '{' ∉ p) (hq1 : '{' ∉ q) (hq2 : '}' ∉ q) (hq3 : q ≠ []) :
    renderLoop ⟨p ++ '{' :: q, false⟩ F = (p, .failed (some (.Parse q))) := by
  have hhd : q.head? ≠ some '{' := by
    cases q with
    | nil => simp
    | cons x xs =>
      simp only [List.head?_cons, ne_eq, Option.some.injEq]
      intro h
      apply hq1
      rw [← h]
      exact List.mem_cons_self x xs
  have hq : renderLoop ⟨q, true⟩ F = ([], .failed (some (.Parse q))) := by
    rw [renderLoop_step, next_key_stuck hq3 hhd (splitOnce_of_not_mem '}' hq2)]
    simp [List.isEmpty_iff, hq3]
  rw [renderLoop_step, next_lit_some (splitOnce_append '{' q hp)]
  simp [hq]

theorem c1_unmatched_open_parse_payload_witness :
    renderLoop ⟨['a', '{', 'b'], false⟩ alwaysUnknown =
      (['a'], .failed (some (.Parse ['b']))) :=
  c1_unmatched_open_parse_payload ['a'] ['b'] alwaysUnknown
    (by decide) (by decide) (by decide) (by decide)

/-- C2 (counterexample): the parser consumes `"{{"` completely, yet
concatenating Literal texts and delimiter-wrapped Key names yields `"{"`,
not the original `"{{"`; likewise `"a{"` is consumed completely but
reconstructs to `"a"`. -/
theorem c2_counterexample :
    (parseAll ⟨['{', '{'], false⟩).2 = [] ∧
    recon (parseAll ⟨['{', '{'], false⟩).1 = ['{'] ∧
    ['{'] ≠ ['{', '{'] ∧
    (parseAll ⟨['a', '{'], false⟩).2 = [] ∧
    recon (parseAll ⟨['a', '{'], false⟩).1 = ['a'] ∧
    ['a'] ≠ ['a', '{'] := by
  decide

/-- C2 (amended): for every template that the parser consumes completely,
that contains no doubled `{{` escape and does not end in `{`, concatenating
in template order each Literal's text and each Key's name wrapped in its
delimiters reconstructs the original template exactly. -/
theorem c2_lossless_reconstruction (s : List Char)
    (hnd : noDouble s = true) (hlb : lastBrace s = false)
    (hrem : (parseAll ⟨s, false⟩).2 = []) :
    recon (parseAll ⟨s, false⟩).1 = s := by
  have h := recon_of_parseAll s.length ⟨s, false⟩ (Nat.le_refl _) hnd hlb
    (by simp) hrem
  simpa using h

theorem c2_lossless_reconstruction_witness :
    recon (parseAll ⟨['a', '{', 'k', '}', 'b'], false⟩).1 =
      ['a', '{', 'k', '}', 'b'] :=
  c2_lossless_reconstruction ['a', '{', 'k', '}', 'b']
    (by decide) (by decide) (by decide)

/-- C9 (counterexample): parsing `"{{"` yields two segments, not exactly
one: an empty Literal precedes the Literal `"{"`. -/
theorem c9_counterexample :
    (parseAll ⟨['{', '{'], false⟩).1.length ≠ 1 ∧
    (parseAll ⟨['{', '{'], false⟩).2 = [] := by
  decide

/-- C9 (amended): parsing the two-character template `"{{"` yields exactly
two segments — an empty Literal followed by a Literal containing the
single character `{` — and leaves an empty remainder; rendering writes
exactly `"{"`. -/
theorem c9_double_brace_parse :
    parseAll ⟨['{', '{'], false⟩ = ([.Literal [], .Literal ['{']], []) ∧
    renderLoop ⟨['{', '{'], false⟩ alwaysUnknown = (['{'], .done) := by
  decide

/-- C10: a template whose final character is an unmatched `{` with nothing
after it (the preceding text does not itself end in `{`, so the final `{`
is not escaped) renders with no Parse error: the parser leaves an empty
remainder, the trailing `{` is silently dropped, and the output is exactly
the rendering of everything before that `{`. -/
theorem c10_trailing_open_dropped (t : List Char) (F : Resolver)
    (out : List Char) (hlb : lastBrace t = false)
    (hr : renderLoop ⟨t, false⟩ F = (out, .done)) :
    renderLoop ⟨t ++ ['{'], false⟩ F = (out, .done) ∧
    (parseAll ⟨t ++ ['{'], false⟩).2 = [] := by
  have h1 := renderLoop_append_brace F t.length ⟨t, false⟩ (Nat.le_refl _)
    hlb (by simp) out hr
  refine ⟨h1, ?_⟩
  have h2 := renderLoop_eq ⟨t ++ ['{'], false⟩ F
  rw [h1] at h2
  have h3 := congrArg Prod.snd h2
  rcases hsr : renderSegments (parseAll ⟨t ++ ['{'], false⟩).1 F with ⟨o2, st2⟩
  rw [hsr] at h3
  cases st2 with
  | done =>
    simp only [mergeRem] at h3
    by_cases hre : (parseAll ⟨t ++ ['{'], false⟩).2.isEmpty
    · exact List.isEmpty_iff.mp hre
    · rw [if_neg hre] at h3
      cases h3
  | failed e =>
    simp only [mergeRem] at h3
    cases h3

theorem c10_trailing_open_dropped_witness :
    renderLoop ⟨['a', 'b', 'c', '{'], false⟩ Message = (['a', 'b', 'c'], .done) ∧
    (parseAll ⟨['a', 'b', 'c', '{'], false⟩).2 = [] :=
  c10_trailing_open_dropped ['a', 'b', 'c'] Message ['a', 'b', 'c']
    (by decide) (by decide)

/-- C3: whenever `CompiledFormatter::new` succeeds on a template, rendering
through the precompiled path (`with_args` / `CompiledFmt`) produces, for
every resolver instance, exactly the same output, the same success/failure
result, and the same recorded Render Error as ad hoc rendering of the same
template through `Formatter`. -/
theorem c3_compiled_matches_adhoc (acc : List Char → Bool) (s : List Char)
    (segs : List ParseSegment) (h : compiledNew acc s = .ok segs)
    (F : Resolver) :
    renderSegments segs F = renderLoop ⟨s, false⟩ F := by
  unfold compiledNew at h
  by_cases hrem : (parseAll ⟨s, false⟩).2.isEmpty
  · rw [if_pos hrem] at h
    cases hhd : ((segKeys (parseAll ⟨s, false⟩).1).filter fun k => !acc k).head? with
    | some k =>
      rw [hhd] at h
      exact Except.noConfusion h
    | none =>
      rw [hhd] at h
      have hsegs : (parseAll ⟨s, false⟩).1 = segs := by
        simpa using h
      rw [renderLoop_eq ⟨s, false⟩ F, hsegs, List.isEmpty_iff.mp hrem,
        mergeRem_nil]
  · rw [if_neg hrem] at h
    exact Except.noConfusion h

theorem c3_compiled_matches_adhoc_witness :
    renderSegments [.Literal ['x'], .Key ['k']] Message =
      renderLoop ⟨['x', '{', 'k', '}'], false⟩ Message :=
  c3_compiled_matches_adhoc (fun _ => true) ['x', '{', 'k', '}']
    [.Literal ['x'], .Key ['k']] rfl Message

/-- C4: rendering stops at the first Key segment whose resolver call fails
(`UnknownKey` or sink failure), with no retry; everything rendered before
that segment remains in the output (no rollback), whatever follows the
failing segment is never examined; and on `UnknownKey` the recorded Render
Error is `Key` with payload exactly the failing key's name. -/
theorem c4_first_failing_key (s : List Char) (F : Resolver)
    (pre post : List ParseSegment) (k : List Char)
    (hsegs : (parseAll ⟨s, false⟩).1 = pre ++ .Key k :: post)
    (hok : allOk F pre = true) :
    (F k = .unknownKey →
      renderLoop ⟨s, false⟩ F = (okOut F pre, .failed (some (.Key k)))) ∧
    (F k = .fmtError →
      renderLoop ⟨s, false⟩ F = (okOut F pre, .failed none)) := by
  constructor
  · intro hF
    rw [renderLoop_eq, hsegs,
      renderSegments_append_fail F k post hok (fun v hv => by simp [hF] at hv)]
    simp [mergeRem, hF]
  · intro hF
    rw [renderLoop_eq, hsegs,
      renderSegments_append_fail F k post hok (fun v hv => by simp [hF] at hv)]
    simp [mergeRem, hF]

theorem c4_first_failing_key_witness :
    renderLoop ⟨"Hello, ".toList ++ '{' :: "recipient".toList ++ '}' ::
        ". Hope you are having a nice ".toList ++ '{' ::
        "time_descriptr".toList ++ '}' :: ".".toList, false⟩ Message =
      ("Hello, World. Hope you are having a nice ".toList,
        .failed (some (.Key "time_descriptr".toList))) := by
  have h := (c4_first_failing_key
    ("Hello, ".toList ++ '{' :: "recipient".toList ++ '}' ::
      ". Hope you are having a nice ".toList ++ '{' ::
      "time_descriptr".toList ++ '}' :: ".".toList) Message
    [.Literal "Hello, ".toList, .Key "recipient".toList,
      .Literal ". Hope you are having a nice ".toList]
    [.Literal ".".toList] "time_descriptr".toList
    (by decide) (by decide)).1 (by decide)
  exact h.trans (by decide)

/-- C5: precompiled construction fails with `Parse` carrying the remainder
exactly when the parse leaves a non-empty unconsumed remainder (the same
condition the ad hoc renderer checks); otherwise, if the static acceptance
predicate rejects some key, it fails with `Key` carrying the first
rejected key name in template order, before any render; and with the
default predicate accepting every name it never fails with `Key`. -/
theorem c5_compiled_construction (acc : List Char → Bool) (s : List Char) :
    ((parseAll ⟨s, false⟩).2 ≠ [] →
      compiledNew acc s = .error (.Parse (parseAll ⟨s, false⟩).2)) ∧
    (∀ r, compiledNew acc s = .error (.Parse r) →
      (parseAll ⟨s, false⟩).2 = r ∧ r ≠ []) ∧
    ((parseAll ⟨s, false⟩).2 = [] → ∀ k,
      (segKeys (parseAll ⟨s, false⟩).1).find? (fun k' => !acc k') = some k →
      compiledNew acc s = .error (.Key k)) ∧
    ((parseAll ⟨s, false⟩).2 = [] →
      (segKeys (parseAll ⟨s, false⟩).1).find? (fun k' => !acc k') = none →
      compiledNew acc s = .ok (parseAll ⟨s, false⟩).1) ∧
    (∀ k, compiledNew (fun _ => true) s ≠ .error (.Key k)) := by
  refine ⟨?_, ?_, ?_, ?_, ?_⟩
  · intro h
    unfold compiledNew
    rw [if_neg (by simpa [List.isEmpty_iff] using h)]
  · intro r h
    unfold compiledNew at h
    by_cases hrem : (parseAll ⟨s, false⟩).2.isEmpty
    · rw [if_pos hrem] at h
      cases hhd : ((segKeys (parseAll ⟨s, false⟩).1).filter fun k => !acc k).head? with
      | some k => rw [hhd] at h; simp at h
      | none => rw [hhd] at h; simp at h
    · rw [if_neg hrem] at h
      simp only [Except.error.injEq, FormatError.Parse.injEq] at h
      refine ⟨h, ?_⟩
      rw [← h]
      simpa [List.isEmpty_iff] using hrem
  · intro hrem k hfind
    unfold compiledNew
    rw [if_pos (by simp [hrem]), filter_head_eq_find, hfind]
  · intro hrem hfind
    unfold compiledNew
    rw [if_pos (by simp [hrem]), filter_head_eq_find, hfind]
  · intro k h
    unfold compiledNew at h
    by_cases hrem : (parseAll ⟨s, false⟩).2.isEmpty
    · rw [if_pos hrem] at h
      simp at h
    · rw [if_neg hrem] at h
      simp at h

theorem c5_compiled_construction_witness :
    compiledNew (fun kk => decide (kk = ['a'])) ['{', 'b', '}'] =
      .error (.Key ['b']) :=
  (c5_compiled_construction (fun kk => decide (kk = ['a']))
    ['{', 'b', '}']).2.2.1 (by decide) ['b'] (by decide)

/-- C6: for every count `k`, a run of `k` doubled opening delimiters
renders as exactly `k` literal `{` characters, with no closing delimiter
required, for any literal text before the run and any template text after
it; in particular `"{{foo}"` renders as `"{foo}"`. -/
theorem c6_escape_law (k : Nat) (a b : List Char) (F : Resolver)
    (ha : '{' ∉ a) (hb : b.head? ≠ some '{') :
    renderLoop ⟨a ++ List.replicate (2 * k) '{' ++ b, false⟩ F =
      (a ++ List.replicate k '{' ++ (renderLoop ⟨b, false⟩ F).1,
        (renderLoop ⟨b, false⟩ F).2) := by
  cases k with
  | zero =>
    simpa using renderLoop_prelude F b ha
  | succ m =>
    have hrep : List.replicate (2 * (m + 1)) '{' ++ b =
        '{' :: (List.replicate (2 * m + 1) '{' ++ b) := by
      have h2 : 2 * (m + 1) = (2 * m + 1) + 1 := by omega
      rw [h2, List.replicate_succ]
      simp
    have h2 : renderLoop ⟨List.replicate (2 * (m + 1)) '{' ++ b, false⟩ F =
        (List.replicate (m + 1) '{' ++ (renderLoop ⟨b, false⟩ F).1,
          (renderLoop ⟨b, false⟩ F).2) := by
      rw [hrep, renderLoop_step, next_lit_some (splitOnce_cons_self '{' _)]
      simp only [escape_run F m b hb]
      simp
    rw [List.append_assoc,
      renderLoop_prelude F (List.replicate (2 * (m + 1)) '{' ++ b) ha, h2]
    simp

theorem c6_escape_law_witness :
    renderLoop ⟨['{', '{', 'f', 'o', 'o', '}'], false⟩ alwaysUnknown =
      (['{', 'f', 'o', 'o', '}'], .done) := by
  have h := c6_escape_law 1 [] ['f', 'o', 'o', '}'] alwaysUnknown
    (by decide) (by decide)
  exact h.trans (by decide)

/-- C7: when a render fails because the resolver reported a sink (`Fmt`)
failure — its leading keys all having resolved — the generic contentless
failure propagates with the diagnostic slot left empty (`none`), so the
failure is never reported as a `Key` or `Parse` Render Error. -/
theorem c7_sink_failure_empty_slot (s : List Char) (F : Resolver)
    (pre post : List ParseSegment) (k : List Char)
    (hsegs : (parseAll ⟨s, false⟩).1 = pre ++ .Key k :: post)
    (hok : allOk F pre = true) (hF : F k = .fmtError) :
    renderLoop ⟨s, false⟩ F = (okOut F pre, .failed none) := by
  rw [renderLoop_eq, hsegs,
    renderSegments_append_fail F k post hok (fun v hv => by simp [hF] at hv)]
  simp [mergeRem, hF]

theorem c7_sink_failure_empty_slot_witness :
    renderLoop ⟨['{', 'k', '}'], false⟩ alwaysSink = ([], .failed none) := by
  have h := c7_sink_failure_empty_slot ['{', 'k', '}'] alwaysSink
    [.Literal []] [] ['k'] (by decide) (by decide) (by decide)
  exact h.trans (by decide)

/-- C8 (counterexample): against a resolver that reports a sink failure
for every key, the one-shot `format` reaches its panic branch (modelled as
`none`): the branch is reachable, contradicting the claim as stated for
every resolver. -/
theorem c8_counterexample : format alwaysSink ['{', 'x', '}'] = none := rfl

/-- C8 (amended): for every resolver that never reports a sink failure,
the one-shot entry point `format` returns either the fully rendered text
or a structured Render Error (`Key` or `Parse`): its panic branch — taken
when the write fails with the diagnostic slot empty — is not reached. -/
theorem c8_no_panic_without_sink_failure (s : List Char) (F : Resolver)
    (hF : ∀ k, F k ≠ .fmtError) : format F s ≠ none := by
  unfold format
  rcases hsr : renderSegments (parseAll ⟨s, false⟩).1 F with ⟨o2, st2⟩
  have hrl := renderLoop_eq ⟨s, false⟩ F
  rw [hsr] at hrl
  cases st2 with
  | done =>
    simp only [mergeRem] at hrl
    rw [hrl]
    by_cases hre : (parseAll ⟨s, false⟩).2.isEmpty
    · simp [hre]
    · simp [hre]
  | failed e =>
    cases e with
    | some e' =>
      simp only [mergeRem] at hrl
      rw [hrl]
      simp
    | none =>
      exact absurd (congrArg Prod.snd hsr)
        (renderSegments_no_sink F hF (parseAll ⟨s, false⟩).1)

theorem c8_no_panic_without_sink_failure_witness :
    format alwaysUnknown ['{', 'x', '}'] ≠ none :=
  c8_no_panic_without_sink_failure ['{', 'x', '}'] alwaysUnknown
    (by intro kk h; simp [alwaysUnknown] at h)
